import Mathlib

/-!
# Verification of the SHR3 pseudo-random generator core

Shallow embedding of the shr3 crate: the 32-bit SHR3 transition function
(`src/arch/generic.rs`), the generator state constructors, the bit
extraction engine `get_bits`, and the rejection-sampling range mapper
`get_minmax` / `get_max` / `get_range` (`src/lib.rs`).

Machine integers are modelled as `Nat` bit patterns with explicit
`% 2^w` wrapping.  An output type `T` of the generic trait layer is
modelled by `IntTy` (bit width plus signedness); a value of type `T` is
its unsigned reinterpretation pattern (a `Nat` below `2^w`), and the
signed order is recovered through `IntTy.toVal`.

The unbounded rejection-sampling loop of `get_minmax` is embedded with
an explicit fuel parameter returning `Option`; termination of the Rust
loop corresponds to the existence of a sufficient fuel, which is proved.
-/

/-- One 32-bit wrapping xor-shift-left step: `state ^= state << k` on `u32`. -/
def xorShl (k s : Nat) : Nat := s ^^^ ((s <<< k) % 2^32)

/-- One xor-shift-right step: `state ^= state >> k` on `u32`. -/
def xorShr (k s : Nat) : Nat := s ^^^ (s >>> k)

/-- The SHR3 transition function from `src/arch/generic.rs`:
`state ^= state << 13; state ^= state >> 17; state ^= state << 5` on `u32`.
The leading `% 2^32` is the identity on every `u32` input. -/
def shr3 (s : Nat) : Nat := xorShl 5 (xorShr 17 (xorShl 13 (s % 2^32)))

/-- `Shr3::new()`: initial register value. -/
def Shr3.new : Nat := 1

/-- `Shr3::new_state(state)`: seed-0 is replaced by `0x7FFFFFFF`. -/
def Shr3.new_state (state : Nat) : Nat :=
  if state = 0 then 0x7FFFFFFF else state

/-- The loop body of `Shr3Ops::get_bits` for an output type of width `w`:
`n` remaining iterations, current register `s`, accumulator `ret`.
Each iteration advances the register once, shifts the accumulator left by
one in the `w`-bit unsigned domain and ors in the new register LSB. -/
def getBitsAux (w : Nat) : Nat → Nat → Nat → Nat × Nat
  | 0, s, ret => (ret, s)
  | n+1, s, ret =>
      let s' := shr3 s
      getBitsAux w n s' (((ret <<< 1) % 2^w) ||| (s' % 2))

/-- `Shr3Ops::get_bits(bitcount)` on a width-`w` output type: returns the
extracted value pattern and the new register. -/
def get_bits (w s n : Nat) : Nat × Nat := getBitsAux w n s 0

/-- Mathematical form of the extraction: `extractBits n s` is the value
assembled from the LSBs of the `n` successive register values after `s`,
first extracted bit most significant. -/
def extractBits : Nat → Nat → Nat
  | 0, _ => 0
  | n+1, s => (shr3 s % 2) * 2^n + extractBits n (shr3 s)

/-- `fls` (find last set) of a `w`-bit value, from `BaseOps::fls`:
`BITS - leading_zeros`, i.e. 0 for 0 and otherwise the 1-based position
of the most significant set bit. -/
def fls : Nat → Nat → Nat
  | 0, _ => 0
  | w+1, v => if v = 0 then 0 else fls w (v / 2) + 1

/-- A supported output type of the numeric trait layer: bit width and
signedness. -/
structure IntTy where
  w : Nat
  signed : Bool

/-- `T::MINVAL` as an unsigned bit pattern. -/
def IntTy.minvalP (t : IntTy) : Nat := if t.signed then 2^(t.w - 1) else 0

/-- `T::MAXVAL` as an unsigned bit pattern. -/
def IntTy.maxvalP (t : IntTy) : Nat :=
  if t.signed then 2^(t.w - 1) - 1 else 2^t.w - 1

/-- The integer value denoted by pattern `p` in type `t`
(two's-complement interpretation when `t` is signed). -/
def IntTy.toVal (t : IntTy) (p : Nat) : Int :=
  if t.signed then (if 2^(t.w - 1) ≤ p then (p : Int) - 2^t.w else (p : Int))
  else (p : Int)

/-- The order of type `t` on patterns: `PartialOrd` of the Rust type. -/
abbrev IntTy.le (t : IntTy) (p q : Nat) : Prop := t.toVal p ≤ t.toVal q

/-- The smallest integer value representable in type `t`. -/
def IntTy.loVal (t : IntTy) : Int :=
  if t.signed then -(2^(t.w - 1) : Int) else 0

/-- The rejection-sampling loop of `Shr3Ops::get_minmax`, with explicit
fuel: draw `get_bits(num_bits)`, accept iff the value is `≤ range`. -/
def minmaxLoop (w numBits range : Nat) : Nat → Nat → Option (Nat × Nat)
  | 0, _ => none
  | fuel+1, s =>
      let r := get_bits w s numBits
      if r.1 ≤ range then some r else minmaxLoop w numBits range fuel r.2

/-- `Shr3Ops::get_minmax(min_value, max_value)` on type `t`:
wrapping-unsigned span, `fls` bit count, rejection loop, then wrapping
addition of the accepted candidate to `min_value`'s pattern. -/
def get_minmax (t : IntTy) (fuel s minP maxP : Nat) : Option (Nat × Nat) :=
  let range := (maxP + 2^t.w - minP) % 2^t.w
  let numBits := fls t.w range
  match minmaxLoop t.w numBits range fuel s with
  | some (value, s') => some ((value + minP) % 2^t.w, s')
  | none => none

/-- `Shr3Ops::get()`: fill the whole output type. -/
def get (t : IntTy) (s : Nat) : Nat × Nat := get_bits t.w s t.w

/-- `Shr3Ops::get_max(max_value) = get_minmax(T::MINVAL, max_value)`. -/
def get_max (t : IntTy) (fuel s maxP : Nat) : Option (Nat × Nat) :=
  get_minmax t fuel s t.minvalP maxP

/-- One end of a `RangeBounds` argument of `Shr3Ops::get_range`. -/
inductive Bnd where
  | included (x : Nat)
  | excluded (x : Nat)
  | unbounded

/-- `Shr3Ops::get_range(range)`: resolve the two bounds into an inclusive
`min`/`max` pair and delegate to `get_minmax`.  An excluded end bound is
decremented in the wrapping pattern domain (`*x - 1`; the code's debug
assertion requires `*x > T::MINVAL`, under which no wrap occurs). -/
def get_range (t : IntTy) (fuel s : Nat) (lo hi : Bnd) : Option (Nat × Nat) :=
  let minP := match lo with
    | .included x => x
    | .excluded _ => t.minvalP
    | .unbounded => t.minvalP
  let maxP := match hi with
    | .included x => x
    | .excluded x => (x + 2^t.w - 1) % 2^t.w
    | .unbounded => t.maxvalP
  get_minmax t fuel s minP maxP

/-! ## GF(2) linear-algebra embedding of `shr3`

A 32-bit GF(2)-linear map is represented by its list of 32 columns,
column `i` being the image pattern of basis vector `2^i`.  Matrix powers
with kernel-evaluable square-and-multiply let the full-period facts about
`shr3` iterates be established by `decide`. -/

/-- Apply a column matrix to a bit pattern: xor of the columns selected
by the set bits of `x`. -/
def matApply : List Nat → Nat → Nat
  | [], _ => 0
  | c :: cs, x => (if x % 2 = 1 then c else 0) ^^^ matApply cs (x / 2)

/-- Matrix product: columns of `B` mapped through `A`. -/
def matMul (A B : List Nat) : List Nat := B.map (matApply A)

/-- The identity matrix on 32 bits. -/
def idMat : List Nat := (List.range 32).map (fun i => 2^i)

/-- The matrix of the linear map `shr3`. -/
def baseMat : List Nat := (List.range 32).map (fun i => shr3 (2^i))

/-- Little-endian binary digits of `n`, with structural fuel. -/
def natBits : Nat → Nat → List Bool
  | 0, _ => []
  | f+1, n => if n = 0 then [] else (n % 2 == 1) :: natBits f (n / 2)

/-- Square-and-multiply power over little-endian digits. -/
def matPowB (M : List Nat) : List Bool → List Nat
  | [] => idMat
  | b :: bs =>
      let r := matPowB (matMul M M) bs
      if b then matMul M r else r

/-- Kernel-evaluable matrix power. -/
def matPowE (M : List Nat) (n : Nat) : List Nat := matPowB M (natBits 64 n)

/-- Reference (slow) matrix power. -/
def mpow (M : List Nat) : Nat → List Nat
  | 0 => idMat
  | n+1 => matMul M (mpow M n)

/-- Value of a little-endian digit list. -/
def bitsVal : List Bool → Nat
  | [] => 0
  | b :: bs => (if b then 1 else 0) + 2 * bitsVal bs

/-- Xor-fold of `f 0, …, f (n-1)`. -/
def xorFold (f : Nat → Nat) (n : Nat) : Nat :=
  (List.range n).foldr (fun i acc => f i ^^^ acc) 0

/-- All columns of a matrix are `u32` patterns. -/
def MatWf (M : List Nat) : Prop := ∀ c ∈ M, c < 2^32

/-! ## Bitwise distribution lemmas -/

theorem xor_mod_two_pow (a b n : Nat) :
    (a ^^^ b) % 2^n = (a % 2^n) ^^^ (b % 2^n) := by
  apply Nat.eq_of_testBit_eq
  intro i
  simp only [Nat.testBit_mod_two_pow, Nat.testBit_xor]
  cases h : decide (i < n) <;> simp_all

theorem xor_shiftLeft (a b k : Nat) :
    (a ^^^ b) <<< k = (a <<< k) ^^^ (b <<< k) := by
  apply Nat.eq_of_testBit_eq
  intro i
  simp only [Nat.testBit_shiftLeft, Nat.testBit_xor]
  cases h : decide (k ≤ i) <;> simp_all

theorem xor_shiftRight (a b k : Nat) :
    (a ^^^ b) >>> k = (a >>> k) ^^^ (b >>> k) := by
  apply Nat.eq_of_testBit_eq
  intro i
  simp only [Nat.testBit_shiftRight, Nat.testBit_xor]

theorem xor_mix (a b c d : Nat) :
    (a ^^^ b) ^^^ (c ^^^ d) = (a ^^^ c) ^^^ (b ^^^ d) := by
  rw [Nat.xor_assoc, Nat.xor_assoc]
  congr 1
  rw [← Nat.xor_assoc, Nat.xor_comm b c, Nat.xor_assoc]

theorem xorShl_linear (k a b : Nat) :
    xorShl k (a ^^^ b) = xorShl k a ^^^ xorShl k b := by
  unfold xorShl
  rw [xor_shiftLeft, xor_mod_two_pow]
  exact xor_mix a b _ _

theorem xorShr_linear (k a b : Nat) :
    xorShr k (a ^^^ b) = xorShr k a ^^^ xorShr k b := by
  unfold xorShr
  rw [xor_shiftRight]
  exact xor_mix a b _ _

/-- `shr3` is GF(2)-linear (xor of bit patterns). -/
theorem shr3_linear (a b : Nat) : shr3 (a ^^^ b) = shr3 a ^^^ shr3 b := by
  unfold shr3
  rw [xor_mod_two_pow, xorShl_linear, xorShr_linear, xorShl_linear]

theorem shr3_zero : shr3 0 = 0 := by decide

theorem xor_lt_two_pow {a b n : Nat} (ha : a < 2^n) (hb : b < 2^n) :
    a ^^^ b < 2^n := Nat.xor_lt_two_pow ha hb

theorem xorShl_lt {k s : Nat} (hs : s < 2^32) : xorShl k s < 2^32 :=
  xor_lt_two_pow hs (Nat.mod_lt _ (by norm_num))

theorem xorShr_lt {k s : Nat} (hs : s < 2^32) : xorShr k s < 2^32 := by
  refine xor_lt_two_pow hs (lt_of_le_of_lt ?_ hs)
  rw [Nat.shiftRight_eq_div_pow]
  exact Nat.div_le_self _ _

/-- `shr3` always outputs a `u32` pattern. -/
theorem shr3_lt (s : Nat) : shr3 s < 2^32 :=
  xorShl_lt (xorShr_lt (xorShl_lt (Nat.mod_lt _ (by norm_num))))

/-- On `u32` inputs, `shr3` is exactly the three-step composition
`<<13`, `>>17`, `<<5`, applied in that order. -/
theorem shr3_eq_steps (s : Nat) (hs : s < 2^32) :
    shr3 s = xorShl 5 (xorShr 17 (xorShl 13 s)) := by
  unfold shr3
  rw [Nat.mod_eq_of_lt hs]

/-- C1. The portable transition function `shr3` is a pure function of its
`u32` argument applying, in order, `state ^= state << 13`,
`state ^= state >> 17`, `state ^= state << 5`, and it maps `0` to `0`,
`0xFFFFFFFF` to `0x0003E01F`, `0x55555555` to `0x000EDFEA`, `0xAAAAAAAA`
to `0x000D3FF5`, `0x42424242` to `0x4B4AEFA7` and `0x3C95A60C` to
`0x82D826E6`. -/
theorem shr3_transition_vectors :
    (∀ s, s < 2^32 → shr3 s = xorShl 5 (xorShr 17 (xorShl 13 s))) ∧
    shr3 0 = 0 ∧
    shr3 0xFFFFFFFF = 0x0003E01F ∧
    shr3 0x55555555 = 0x000EDFEA ∧
    shr3 0xAAAAAAAA = 0x000D3FF5 ∧
    shr3 0x42424242 = 0x4B4AEFA7 ∧
    shr3 0x3C95A60C = 0x82D826E6 :=
  ⟨shr3_eq_steps, by decide, by decide, by decide, by decide, by decide,
    by decide⟩

/-- C1 witness: the step decomposition evaluated at `0x42424242`. -/
theorem shr3_transition_vectors_witness :
    (0x42424242 : Nat) < 2^32 ∧
    shr3 0x42424242 = xorShl 5 (xorShr 17 (xorShl 13 0x42424242)) :=
  ⟨by norm_num, shr3_transition_vectors.1 0x42424242 (by norm_num)⟩

/-- C9. Construction is total and exact: `Shr3::new()` (and `default()`)
yields register `1`; `Shr3::new_state(0)` yields `0x7FFFFFFF`; and for
every non-zero seed `s`, `Shr3::new_state(s)` yields exactly `s`
(for example seed `42` yields register `42`). -/
theorem shr3_constructors :
    Shr3.new = 1 ∧
    Shr3.new_state 0 = 0x7FFFFFFF ∧
    (∀ s, s ≠ 0 → Shr3.new_state s = s) ∧
    Shr3.new_state 42 = 42 := by
  refine ⟨rfl, by decide, ?_, by decide⟩
  intro s hs
  simp [Shr3.new_state, hs]

/-- C9 witness: the non-zero-seed case evaluated at seed `42`. -/
theorem shr3_constructors_witness :
    (42 : Nat) ≠ 0 ∧ Shr3.new_state 42 = 42 :=
  ⟨by decide, shr3_constructors.2.2.1 42 (by decide)⟩

/-! ## Matrix lemmas -/

theorem matApply_zero (M : List Nat) : matApply M 0 = 0 := by
  induction M with
  | nil => rfl
  | cons c cs ih => simp [matApply, ih]

theorem matApply_xor (M : List Nat) (x y : Nat) :
    matApply M (x ^^^ y) = matApply M x ^^^ matApply M y := by
  induction M generalizing x y with
  | nil => simp [matApply]
  | cons c cs ih =>
    simp only [matApply]
    rw [Nat.xor_div_two, ih]
    rw [xor_mix]
    have hxy : (x ^^^ y) % 2 = x % 2 ^^^ y % 2 := by
      have h := xor_mod_two_pow x y 1
      simpa using h
    rcases Nat.mod_two_eq_zero_or_one x with hx | hx <;>
      rcases Nat.mod_two_eq_zero_or_one y with hy | hy <;>
      simp [hxy, hx, hy, Nat.xor_self]

theorem matApply_matMul (A B : List Nat) (x : Nat) :
    matApply (matMul A B) x = matApply A (matApply B x) := by
  induction B generalizing x with
  | nil => simp [matMul, matApply, matApply_zero]
  | cons c cs ih =>
    simp only [matMul, List.map_cons, matApply] at ih ⊢
    rw [ih, matApply_xor]
    congr 1
    split <;> simp [matApply_zero]

theorem matMul_assoc (A B C : List Nat) :
    matMul (matMul A B) C = matMul A (matMul B C) := by
  simp only [matMul, List.map_map]
  apply List.map_congr_left
  intro x _
  exact matApply_matMul A B x

theorem mpow_two_mul (M : List Nat) (k : Nat) :
    mpow (matMul M M) k = mpow M (2 * k) := by
  induction k with
  | zero => rfl
  | succ k ih =>
    show matMul (matMul M M) (mpow (matMul M M) k) = mpow M (2 * (k + 1))
    rw [ih, matMul_assoc, Nat.mul_succ]
    rfl

theorem matPowB_eq (bs : List Bool) :
    ∀ M, matPowB M bs = mpow M (bitsVal bs) := by
  induction bs with
  | nil => intro M; rfl
  | cons b bs ih =>
    intro M
    simp only [matPowB, bitsVal]
    rw [ih (matMul M M), mpow_two_mul]
    cases b
    · simp
    · rw [if_pos rfl, Nat.add_comm]
      rfl

theorem bitsVal_natBits (f : Nat) :
    ∀ n, n < 2^f → bitsVal (natBits f n) = n := by
  induction f with
  | zero =>
    intro n hn
    interval_cases n
    rfl
  | succ f ih =>
    intro n hn
    simp only [natBits]
    by_cases h0 : n = 0
    · simp [h0, bitsVal]
    · rw [if_neg h0]
      simp only [bitsVal]
      rw [ih (n / 2) (by rw [pow_succ] at hn; omega)]
      rcases Nat.mod_two_eq_zero_or_one n with h2 | h2 <;> simp [h2] <;> omega

theorem matPowE_eq (M : List Nat) (n : Nat) (h : n < 2^64) :
    matPowE M n = mpow M n := by
  unfold matPowE
  rw [matPowB_eq, bitsVal_natBits 64 n h]

theorem two_pow_mul_xor_add {k b m : Nat} (hb : b < 2) :
    b * 2^k ^^^ m * 2^(k+1) = b * 2^k + m * 2^(k+1) := by
  have hB : b * 2^k < 2^(k+1) := by
    calc b * 2^k ≤ 1 * 2^k := Nat.mul_le_mul_right _ (by omega)
    _ = 2^k := one_mul _
    _ < 2^(k+1) := Nat.pow_lt_pow_succ (by omega)
  apply Nat.eq_of_testBit_eq
  intro j
  rw [Nat.testBit_xor]
  rw [show b * 2^k + m * 2^(k+1) = 2^(k+1) * m + b * 2^k by ring]
  rw [Nat.testBit_mul_pow_two_add _ hB]
  by_cases hj : j < k + 1
  · rw [if_pos hj]
    have hz : Nat.testBit (m * 2^(k+1)) j = false := by
      rw [Nat.mul_comm, Nat.testBit_mul_pow_two]
      simp
      omega
    rw [hz, Bool.xor_false]
  · rw [if_neg hj]
    have h1 : Nat.testBit (b * 2^k) j = false := by
      rw [Nat.mul_comm, Nat.testBit_mul_pow_two]
      have hbb : Nat.testBit b (j - k) = false := by
        apply Nat.testBit_lt_two_pow
        calc b < 2^1 := by omega
        _ ≤ 2^(j-k) := Nat.pow_le_pow_right (by omega) (by omega)
      simp [hbb]
    have h2 : Nat.testBit (m * 2^(k+1)) j = Nat.testBit m (j - (k+1)) := by
      rw [Nat.mul_comm, Nat.testBit_mul_pow_two]
      simp
      omega
    rw [h1, h2, Bool.false_xor]

theorem matApply_map_basis (f : Nat → Nat)
    (hf : ∀ a b, f (a ^^^ b) = f a ^^^ f b) (h0 : f 0 = 0) :
    ∀ j k x, x < 2^j →
      matApply ((List.range j).map (fun i => f (2^(k+i)))) x = f (x * 2^k) := by
  intro j
  induction j with
  | zero =>
    intro k x hx
    interval_cases x
    simpa [matApply] using h0.symm
  | succ j ih =>
    intro k x hx
    rw [List.range_succ_eq_map, List.map_cons, List.map_map]
    have hcomp : ((fun i => f (2^(k+i))) ∘ Nat.succ) =
        (fun i => f (2^((k+1)+i))) := by
      funext i
      simp only [Function.comp_apply]
      congr 2
      omega
    rw [hcomp]
    simp only [matApply]
    rw [ih (k+1) (x / 2) (by rw [pow_succ] at hx; omega)]
    have harg : (x % 2) * 2^k ^^^ (x / 2) * 2^(k+1) = x * 2^k := by
      rw [two_pow_mul_xor_add (Nat.mod_lt x (by omega))]
      have : x % 2 + 2 * (x / 2) = x := by omega
      calc x % 2 * 2^k + x / 2 * 2^(k+1)
          = (x % 2 + 2 * (x / 2)) * 2^k := by ring
        _ = x * 2^k := by rw [this]
    rw [← harg, hf]
    congr 1
    rcases Nat.mod_two_eq_zero_or_one x with h2 | h2 <;> simp [h2, h0]

theorem matApply_baseMat (x : Nat) (hx : x < 2^32) :
    matApply baseMat x = shr3 x := by
  have h := matApply_map_basis shr3 shr3_linear shr3_zero 32 0 x hx
  have hL : (List.range 32).map (fun i => shr3 (2^(0+i))) = baseMat := by
    unfold baseMat
    apply List.map_congr_left
    intro i _
    rw [Nat.zero_add]
  rw [hL] at h
  rw [h, pow_zero, Nat.mul_one]

theorem matApply_idMat (x : Nat) (hx : x < 2^32) : matApply idMat x = x := by
  have h := matApply_map_basis (fun v => v % 2^32)
    (fun a b => xor_mod_two_pow a b 32) (by norm_num) 32 0 x hx
  have hL : (List.range 32).map (fun i => (2^(0+i)) % 2^32) = idMat := by
    unfold idMat
    apply List.map_congr_left
    intro i hi
    rw [Nat.zero_add, Nat.mod_eq_of_lt]
    exact Nat.pow_lt_pow_right (by omega) (List.mem_range.mp hi)
  rw [hL] at h
  simp only [pow_zero, Nat.mul_one] at h
  rw [h]
  exact Nat.mod_eq_of_lt hx

theorem shr3_iterate_lt (n x : Nat) (hx : x < 2^32) : shr3^[n] x < 2^32 := by
  cases n with
  | zero => simpa using hx
  | succ n =>
    rw [Function.iterate_succ_apply']
    exact shr3_lt _

theorem shr3_iterate_matApply (n x : Nat) (hx : x < 2^32) :
    shr3^[n] x = matApply (mpow baseMat n) x := by
  induction n with
  | zero =>
    simp [mpow, matApply_idMat x hx]
  | succ n ih =>
    rw [Function.iterate_succ_apply']
    show _ = matApply (matMul baseMat (mpow baseMat n)) x
    rw [matApply_matMul, ← ih, matApply_baseMat _ (shr3_iterate_lt n x hx)]

/-! ## Kernel-checked power facts

`4294967295 = 2^32 - 1 = 3 * 5 * 17 * 257 * 65537`.  The five numbers
below are its quotients by each prime factor. -/

set_option maxHeartbeats 4000000 in
set_option maxRecDepth 100000 in
theorem matPow_full_period : matPowE baseMat 4294967295 = idMat := by decide

set_option maxHeartbeats 4000000 in
set_option maxRecDepth 100000 in
theorem matPow_div3 : matApply (matPowE baseMat 1431655765) 1 ≠ 1 := by decide

set_option maxHeartbeats 4000000 in
set_option maxRecDepth 100000 in
theorem matPow_div5 : matApply (matPowE baseMat 858993459) 1 ≠ 1 := by decide

set_option maxHeartbeats 4000000 in
set_option maxRecDepth 100000 in
theorem matPow_div17 : matApply (matPowE baseMat 252645135) 1 ≠ 1 := by decide

set_option maxHeartbeats 4000000 in
set_option maxRecDepth 100000 in
theorem matPow_div257 : matApply (matPowE baseMat 16711935) 1 ≠ 1 := by decide

set_option maxHeartbeats 4000000 in
set_option maxRecDepth 100000 in
theorem matPow_div65537 : matApply (matPowE baseMat 65535) 1 ≠ 1 := by decide

/-- Every `u32` state returns to itself after `2^32 - 1` transitions. -/
theorem shr3_period (x : Nat) (hx : x < 2^32) : shr3^[4294967295] x = x := by
  rw [shr3_iterate_matApply _ _ hx,
    ← matPowE_eq baseMat 4294967295 (by norm_num),
    matPow_full_period, matApply_idMat _ hx]

theorem shr3_iter_ne_one (d : Nat) (hd : d < 2^64)
    (h : matApply (matPowE baseMat d) 1 ≠ 1) : shr3^[d] 1 ≠ 1 := by
  rw [shr3_iterate_matApply d 1 (by norm_num), ← matPowE_eq baseMat d hd]
  exact h

/-! ## Number theory for the period `2^32 - 1` -/

theorem prime_dvd_N {p : Nat} (hp : p.Prime) (hd : p ∣ 4294967295) :
    p = 3 ∨ p = 5 ∨ p = 17 ∨ p = 257 ∨ p = 65537 := by
  have hN : (4294967295 : Nat) = 3 * 5 * 17 * 257 * 65537 := by norm_num
  rw [hN] at hd
  rcases (Nat.Prime.dvd_mul hp).mp hd with h | h
  · rcases (Nat.Prime.dvd_mul hp).mp h with h | h
    · rcases (Nat.Prime.dvd_mul hp).mp h with h | h
      · rcases (Nat.Prime.dvd_mul hp).mp h with h | h
        · exact Or.inl ((Nat.prime_dvd_prime_iff_eq hp (by norm_num)).mp h)
        · exact Or.inr (Or.inl ((Nat.prime_dvd_prime_iff_eq hp (by norm_num)).mp h))
      · exact Or.inr (Or.inr (Or.inl
          ((Nat.prime_dvd_prime_iff_eq hp (by norm_num)).mp h)))
    · exact Or.inr (Or.inr (Or.inr (Or.inl
        ((Nat.prime_dvd_prime_iff_eq hp (by norm_num)).mp h))))
  · exact Or.inr (Or.inr (Or.inr (Or.inr
      ((Nat.prime_dvd_prime_iff_eq hp (by norm_num)).mp h))))

theorem dvd_N_proper {k : Nat} (hk : k ∣ 4294967295) (hne : k ≠ 4294967295) :
    k ∣ 1431655765 ∨ k ∣ 858993459 ∨ k ∣ 252645135 ∨ k ∣ 16711935 ∨
      k ∣ 65535 := by
  obtain ⟨m, hm⟩ := hk
  have hm1 : m ≠ 1 := by
    rintro rfl
    omega
  obtain ⟨p, hp, hpm⟩ := Nat.exists_prime_and_dvd hm1
  have hpN : p ∣ 4294967295 := hm ▸ Dvd.dvd.mul_left hpm k
  obtain ⟨m2, hm2⟩ := hpm
  have hdiv : k ∣ 4294967295 / p := by
    refine ⟨m2, ?_⟩
    have hfac : (4294967295 : Nat) = p * (k * m2) := by
      rw [hm, hm2]
      ring
    rw [hfac, Nat.mul_div_cancel_left _ hp.pos]
  rcases prime_dvd_N hp hpN with rfl | rfl | rfl | rfl | rfl
  · exact Or.inl (by norm_num at hdiv; exact hdiv)
  · exact Or.inr (Or.inl (by norm_num at hdiv; exact hdiv))
  · exact Or.inr (Or.inr (Or.inl (by norm_num at hdiv; exact hdiv)))
  · exact Or.inr (Or.inr (Or.inr (Or.inl (by norm_num at hdiv; exact hdiv))))
  · exact Or.inr (Or.inr (Or.inr (Or.inr (by norm_num at hdiv; exact hdiv))))

theorem isPeriodic_of_dvd {x k d : Nat} (hk : Function.IsPeriodicPt shr3 k x)
    (hd : k ∣ d) : Function.IsPeriodicPt shr3 d x := by
  obtain ⟨c, rfl⟩ := hd
  exact hk.mul_const c

/-- The orbit of `1` has minimal period exactly `2^32 - 1`. -/
theorem minPeriod_one : Function.minimalPeriod shr3 1 = 4294967295 := by
  have hper : Function.IsPeriodicPt shr3 4294967295 1 :=
    shr3_period 1 (by norm_num)
  have hdvd := hper.minimalPeriod_dvd
  by_contra hne
  have hmin := Function.isPeriodicPt_minimalPeriod shr3 1
  rcases dvd_N_proper hdvd hne with h | h | h | h | h
  · exact shr3_iter_ne_one _ (by norm_num) matPow_div3 (isPeriodic_of_dvd hmin h)
  · exact shr3_iter_ne_one _ (by norm_num) matPow_div5 (isPeriodic_of_dvd hmin h)
  · exact shr3_iter_ne_one _ (by norm_num) matPow_div17 (isPeriodic_of_dvd hmin h)
  · exact shr3_iter_ne_one _ (by norm_num) matPow_div257 (isPeriodic_of_dvd hmin h)
  · exact shr3_iter_ne_one _ (by norm_num) matPow_div65537
      (isPeriodic_of_dvd hmin h)

/-! ## Injectivity and orbit structure -/

theorem shr3_inj {a b : Nat} (ha : a < 2^32) (hb : b < 2^32)
    (h : shr3 a = shr3 b) : a = b := by
  have hsplit : (4294967295 : Nat) = 4294967294 + 1 := by norm_num
  have h1 := shr3_period a ha
  have h2 := shr3_period b hb
  rw [hsplit, Function.iterate_add_apply] at h1 h2
  simp only [Function.iterate_one] at h1 h2
  rw [h] at h1
  exact h1.symm.trans h2

theorem shr3_iterate_inj (n : Nat) :
    ∀ a b, a < 2^32 → b < 2^32 → shr3^[n] a = shr3^[n] b → a = b := by
  induction n with
  | zero =>
    intro a b _ _ h
    simpa using h
  | succ n ih =>
    intro a b ha hb h
    rw [Function.iterate_succ_apply, Function.iterate_succ_apply] at h
    exact shr3_inj ha hb (ih _ _ (shr3_lt a) (shr3_lt b) h)

theorem shr3_ne_zero {s : Nat} (hs : s < 2^32) (h0 : s ≠ 0) : shr3 s ≠ 0 := by
  intro hz
  exact h0 (shr3_inj hs (by norm_num) (hz.trans shr3_zero.symm))

theorem shr3_iterate_ne_zero (n : Nat) {s : Nat} (hs : s < 2^32) (h0 : s ≠ 0) :
    shr3^[n] s ≠ 0 := by
  induction n with
  | zero => simpa using h0
  | succ n ih =>
    rw [Function.iterate_succ_apply']
    exact shr3_ne_zero (shr3_iterate_lt n s hs) ih

/-- Iterates below the minimal period are pairwise distinct. -/
theorem iterate_inj_of_minPeriod {s : Nat} (hs : s < 2^32)
    (hmp : Function.minimalPeriod shr3 s = 4294967295) :
    ∀ i j, i < 4294967295 → j < 4294967295 → shr3^[i] s = shr3^[j] s →
      i = j := by
  have key : ∀ i j, i ≤ j → j < 4294967295 → shr3^[i] s = shr3^[j] s →
      i = j := by
    intro i j hij hj h
    have hd : shr3^[i] (shr3^[j - i] s) = shr3^[i] s := by
      rw [← Function.iterate_add_apply, show i + (j - i) = j from by omega]
      exact h.symm
    have hfix : shr3^[j - i] s = s :=
      shr3_iterate_inj i _ _ (shr3_iterate_lt _ _ hs) hs hd
    by_contra hne
    have hpos : 0 < j - i := by omega
    have hper : Function.IsPeriodicPt shr3 (j - i) s := hfix
    have hle := hper.minimalPeriod_le hpos
    rw [hmp] at hle
    omega
  intro i j hi hj h
  rcases le_total i j with hle | hle
  · exact key i j hle hj h
  · exact (key j i hle hi h.symm).symm

/-- The orbit of `1` visits every non-zero `u32` value. -/
theorem orbit_one_covers {t : Nat} (ht0 : t ≠ 0) (ht : t < 2^32) :
    ∃ i, i < 4294967295 ∧ shr3^[i] 1 = t := by
  classical
  have hsub : (Finset.range 4294967295).image (fun i => shr3^[i] 1) ⊆
      (Finset.range (2^32)).erase 0 := by
    intro y hy
    simp only [Finset.mem_image, Finset.mem_range] at hy
    obtain ⟨i, _, rfl⟩ := hy
    simp only [Finset.mem_erase, Finset.mem_range]
    exact ⟨shr3_iterate_ne_zero i (by norm_num) (by norm_num),
      shr3_iterate_lt i 1 (by norm_num)⟩
  have hinj : Set.InjOn (fun i => shr3^[i] 1)
      ((Finset.range 4294967295) : Finset Nat) := by
    intro i hi j hj hij
    simp only [Finset.coe_range, Set.mem_Iio] at hi hj
    exact iterate_inj_of_minPeriod (by norm_num) minPeriod_one i j hi hj hij
  have hcardO : ((Finset.range 4294967295).image
      (fun i => shr3^[i] 1)).card = 4294967295 := by
    rw [Finset.card_image_of_injOn hinj, Finset.card_range]
  have hcardS : ((Finset.range (2^32)).erase 0).card = 4294967295 := by
    rw [Finset.card_erase_of_mem (Finset.mem_range.mpr (by norm_num)),
      Finset.card_range]
    norm_num
  have heq : (Finset.range 4294967295).image (fun i => shr3^[i] 1) =
      (Finset.range (2^32)).erase 0 :=
    Finset.eq_of_subset_of_card_le hsub (by rw [hcardS, hcardO])
  have htS : t ∈ (Finset.range (2^32)).erase 0 := by
    simp only [Finset.mem_erase, Finset.mem_range]
    exact ⟨ht0, ht⟩
  rw [← heq] at htS
  simp only [Finset.mem_image, Finset.mem_range] at htS
  obtain ⟨i, hi, hit⟩ := htS
  exact ⟨i, hi, hit⟩

theorem shr3_iter_d_ne {x : Nat} (d : Nat) (hx0 : x ≠ 0) (hx : x < 2^32)
    (hd : d < 2^64) (hmat : matApply (matPowE baseMat d) 1 ≠ 1) :
    shr3^[d] x ≠ x := by
  obtain ⟨i, _, rfl⟩ := orbit_one_covers hx0 hx
  intro h
  rw [← Function.iterate_add_apply, Nat.add_comm,
    Function.iterate_add_apply] at h
  exact shr3_iter_ne_one d hd hmat
    (shr3_iterate_inj i _ _ (shr3_iterate_lt d 1 (by norm_num)) (by norm_num) h)

/-- Every non-zero `u32` state has minimal period exactly `2^32 - 1`. -/
theorem minPeriod_all {x : Nat} (hx0 : x ≠ 0) (hx : x < 2^32) :
    Function.minimalPeriod shr3 x = 4294967295 := by
  have hper : Function.IsPeriodicPt shr3 4294967295 x := shr3_period x hx
  have hdvd := hper.minimalPeriod_dvd
  by_contra hne
  have hmin := Function.isPeriodicPt_minimalPeriod shr3 x
  rcases dvd_N_proper hdvd hne with h | h | h | h | h
  · exact shr3_iter_d_ne _ hx0 hx (by norm_num) matPow_div3
      (isPeriodic_of_dvd hmin h)
  · exact shr3_iter_d_ne _ hx0 hx (by norm_num) matPow_div5
      (isPeriodic_of_dvd hmin h)
  · exact shr3_iter_d_ne _ hx0 hx (by norm_num) matPow_div17
      (isPeriodic_of_dvd hmin h)
  · exact shr3_iter_d_ne _ hx0 hx (by norm_num) matPow_div257
      (isPeriodic_of_dvd hmin h)
  · exact shr3_iter_d_ne _ hx0 hx (by norm_num) matPow_div65537
      (isPeriodic_of_dvd hmin h)

theorem shr3_iterate_mul_period (q : Nat) :
    ∀ y, y < 2^32 → shr3^[4294967295 * q] y = y := by
  induction q with
  | zero =>
    intro y _
    simp
  | succ q ih =>
    intro y hy
    rw [Nat.mul_succ, Function.iterate_add_apply, shr3_period y hy, ih y hy]

theorem shr3_iterate_mod (m x : Nat) (hx : x < 2^32) :
    shr3^[m] x = shr3^[m % 4294967295] x := by
  conv_lhs =>
    rw [show m = 4294967295 * (m / 4294967295) + m % 4294967295 from
      (Nat.div_add_mod m 4294967295).symm]
  rw [Function.iterate_add_apply]
  exact shr3_iterate_mul_period _ _ (shr3_iterate_lt _ _ hx)

/-- C2. The transition function `shr3` is a bijection on the `u32` space,
and restricted to the `2^32 - 1` non-zero values it forms a single cycle
of length exactly `2^32 - 1`: from every non-zero state `s`, every
non-zero value `t` is reached by exactly one iteration count below
`2^32 - 1`, and the minimal period of `s` (the first return time) is
exactly `2^32 - 1`. -/
theorem shr3_full_cycle :
    (∀ a b, a < 2^32 → b < 2^32 → shr3 a = shr3 b → a = b) ∧
    (∀ y, y < 2^32 → ∃ x, x < 2^32 ∧ shr3 x = y) ∧
    (∀ s, 0 < s → s < 2^32 →
      Function.minimalPeriod shr3 s = 2^32 - 1 ∧
      ∀ t, 0 < t → t < 2^32 → ∃! i, i < 2^32 - 1 ∧ shr3^[i] s = t) := by
  refine ⟨fun a b ha hb h => shr3_inj ha hb h, ?_, ?_⟩
  · intro y hy
    refine ⟨shr3^[4294967294] y, shr3_iterate_lt _ _ hy, ?_⟩
    have h1 := shr3_period y hy
    rw [show (4294967295 : Nat) = 4294967294 + 1 from by norm_num,
      Function.iterate_succ_apply'] at h1
    exact h1
  · intro s hs0 hs
    have hmp : Function.minimalPeriod shr3 s = 4294967295 :=
      minPeriod_all (by omega) hs
    refine ⟨by rw [hmp]; norm_num, ?_⟩
    intro t ht0 ht
    obtain ⟨b, hb, hbs⟩ := orbit_one_covers (show s ≠ 0 from by omega) hs
    obtain ⟨a, ha, hat⟩ := orbit_one_covers (show t ≠ 0 from by omega) ht
    refine ⟨(a + (4294967295 - b)) % 4294967295,
      ⟨by have := Nat.mod_lt (a + (4294967295 - b)) (show 0 < 4294967295 from
        by norm_num); omega, ?_⟩, ?_⟩
    · rw [← hbs, ← Function.iterate_add_apply,
        shr3_iterate_mod _ 1 (by norm_num)]
      have harith : ((a + (4294967295 - b)) % 4294967295 + b) % 4294967295
          = a := by
        rw [Nat.mod_add_mod]
        rw [show a + (4294967295 - b) + b = a + 4294967295 from by omega]
        rw [Nat.add_mod_right]
        exact Nat.mod_eq_of_lt ha
      rw [harith, hat]
    · rintro j ⟨hj, hjt⟩
      have hfirst : shr3^[(a + (4294967295 - b)) % 4294967295] s = t := by
        rw [← hbs, ← Function.iterate_add_apply,
          shr3_iterate_mod _ 1 (by norm_num)]
        have harith : ((a + (4294967295 - b)) % 4294967295 + b) % 4294967295
            = a := by
          rw [Nat.mod_add_mod]
          rw [show a + (4294967295 - b) + b = a + 4294967295 from by omega]
          rw [Nat.add_mod_right]
          exact Nat.mod_eq_of_lt ha
        rw [harith, hat]
      refine iterate_inj_of_minPeriod hs hmp j _ (by omega)
        (Nat.mod_lt _ (by norm_num)) ?_
      rw [hjt, hfirst]

/-- C2 witness: the cycle facts instantiated at state `1`. -/
theorem shr3_full_cycle_witness :
    0 < 1 ∧ (1 : Nat) < 2^32 ∧
    Function.minimalPeriod shr3 1 = 2^32 - 1 :=
  ⟨by norm_num, by norm_num,
    (shr3_full_cycle.2.2 1 (by norm_num) (by norm_num)).1⟩

/-! ## Bit extraction engine -/

theorem getBitsAux_state (w : Nat) :
    ∀ n s ret, (getBitsAux w n s ret).2 = shr3^[n] s := by
  intro n
  induction n with
  | zero =>
    intro s ret
    rfl
  | succ n ih =>
    intro s ret
    rw [Function.iterate_succ_apply]
    exact ih (shr3 s) _

theorem extractBits_lt (n : Nat) : ∀ s, extractBits n s < 2^n := by
  induction n with
  | zero =>
    intro s
    simp [extractBits]
  | succ n ih =>
    intro s
    have h1 : shr3 s % 2 ≤ 1 := by omega
    have h2 : extractBits n (shr3 s) < 2^n := ih (shr3 s)
    calc extractBits (n+1) s = (shr3 s % 2) * 2^n + extractBits n (shr3 s) :=
        rfl
    _ ≤ 1 * 2^n + extractBits n (shr3 s) :=
        Nat.add_le_add_right (Nat.mul_le_mul_right _ h1) _
    _ < 2^n + 2^n := by omega
    _ = 2^(n+1) := by rw [pow_succ]; ring

theorem getBitsAux_val (w : Nat) :
    ∀ n s ret, n ≤ w → ret < 2^(w - n) →
      (getBitsAux w n s ret).1 = ret * 2^n + extractBits n s := by
  intro n
  induction n with
  | zero =>
    intro s ret _ _
    simp [getBitsAux, extractBits]
  | succ n ih =>
    intro s ret hn hret
    have hr2 : 2 * ret + shr3 s % 2 < 2^(w - n) := by
      have hsub : w - (n+1) + 1 = w - n := by omega
      have : ret + 1 ≤ 2^(w - (n+1)) := hret
      have h2 : 2 * (ret + 1) ≤ 2 * 2^(w - (n+1)) := by omega
      rw [← pow_succ', hsub] at h2
      omega
    have hretw : ret < 2^w := by
      have hle : (2:Nat)^(w - (n+1)) ≤ 2^w :=
        Nat.pow_le_pow_right (by omega) (by omega)
      omega
    show (getBitsAux w n (shr3 s) (((ret <<< 1) % 2^w) ||| (shr3 s % 2))).1 = _
    have hshift : ((ret <<< 1) % 2^w) ||| (shr3 s % 2)
        = 2 * ret + shr3 s % 2 := by
      rw [Nat.shiftLeft_eq, pow_one, Nat.mod_eq_of_lt]
      · rw [show ret * 2 = 2^1 * ret from by ring]
        rw [← Nat.mul_add_lt_is_or (by omega) ret]
      · have hsub : w - (n+1) + 1 ≤ w := by omega
        calc ret * 2 < 2^(w - (n+1)) * 2 := by omega
        _ = 2^(w - (n+1) + 1) := (pow_succ 2 _).symm
        _ ≤ 2^w := Nat.pow_le_pow_right (by omega) hsub
    rw [hshift, ih (shr3 s) _ (by omega) hr2]
    show (2 * ret + shr3 s % 2) * 2^n + extractBits n (shr3 s)
        = ret * 2^(n+1) + ((shr3 s % 2) * 2^n + extractBits n (shr3 s))
    rw [pow_succ]
    ring

/-- `get_bits` computes `extractBits` and advances the register by
exactly `n` transitions. -/
theorem get_bits_eq (w s n : Nat) (hn : n ≤ w) :
    get_bits w s n = (extractBits n s, shr3^[n] s) := by
  unfold get_bits
  refine Prod.ext ?_ (getBitsAux_state w n s 0)
  rw [getBitsAux_val w n s 0 hn (Nat.pos_pow_of_pos _ (by omega))]
  simp

/-- Bit `n - 1 - i` of the extracted value is the LSB of the `i+1`-st
register value: the first extracted bit lands most significant. -/
theorem extractBits_bit (n : Nat) :
    ∀ s i, i < n → extractBits n s / 2^(n - 1 - i) % 2 = shr3^[i+1] s % 2 := by
  induction n with
  | zero =>
    intro s i hi
    omega
  | succ n ih =>
    intro s i hi
    show ((shr3 s % 2) * 2^n + extractBits n (shr3 s)) / 2^(n + 1 - 1 - i) % 2
        = shr3^[i+1] s % 2
    rw [show n + 1 - 1 - i = n - i from by omega]
    rcases Nat.eq_zero_or_pos i with rfl | hpos
    · rw [Nat.sub_zero, Nat.mul_comm, Nat.mul_add_div (Nat.two_pow_pos n)]
      rw [Nat.div_eq_of_lt (extractBits_lt n (shr3 s))]
      rw [Nat.zero_add, Function.iterate_one]
      omega
    · obtain ⟨j, rfl⟩ : ∃ j, i = j + 1 := ⟨i - 1, by omega⟩
      have hIH := ih (shr3 s) j (by omega)
      rw [show n - 1 - j = n - (j + 1) from by omega] at hIH
      rw [show shr3^[j+1] (shr3 s) = shr3^[j+1+1] s from
        (Function.iterate_succ_apply shr3 (j+1) s).symm] at hIH
      have hsplit : (shr3 s % 2) * 2^n
          = 2^(n - (j+1)) * ((shr3 s % 2) * 2^(j+1)) := by
        have hexp : (2:Nat)^n = 2^(n - (j+1)) * 2^(j+1) := by
          rw [← pow_add]
          congr 1
          omega
        rw [hexp]
        ring
      rw [hsplit, Nat.mul_add_div (Nat.two_pow_pos _)]
      have heven : 2 ∣ (shr3 s % 2) * 2^(j+1) :=
        Dvd.dvd.mul_left (dvd_pow_self 2 (Nat.succ_ne_zero j)) _
      omega

set_option maxRecDepth 40000 in
/-- C3. For every output type width `w` and `bitcount ≤ w`, `get_bits`
advances the register by exactly `bitcount` transitions (zero for
`bitcount = 0`, returning `0` with the register unchanged) and assembles
the result from the LSB of each successive register value, first
extracted bit most significant; with seed `42`, six successive 16-bit
`get_bits(3)` calls yield `1, 0, 1, 5, 1, 4` and six successive 16-bit
`get()` calls yield `0x20D3, 0x2C5C, 0x2A17, 0xD3C5, 0xAF08, 0x9E5B`. -/
theorem get_bits_spec :
    (∀ w s n, n ≤ w →
      (get_bits w s n).2 = shr3^[n] s ∧
      (get_bits w s n).1 < 2^n ∧
      ∀ i, i < n → (get_bits w s n).1 / 2^(n - 1 - i) % 2 = shr3^[i+1] s % 2) ∧
    (∀ w s, get_bits w s 0 = (0, s)) ∧
    (∀ k, k < 6 →
      (get_bits 16 (shr3^[3*k] 42) 3).1 = [1, 0, 1, 5, 1, 4].getD k 0) ∧
    (∀ k, k < 6 →
      (get ⟨16, false⟩ (shr3^[16*k] 42)).1 =
        [0x20D3, 0x2C5C, 0x2A17, 0xD3C5, 0xAF08, 0x9E5B].getD k 0) := by
  refine ⟨?_, fun w s => rfl, by decide, by decide⟩
  intro w s n hn
  rw [get_bits_eq w s n hn]
  exact ⟨rfl, extractBits_lt n s, fun i hi => extractBits_bit n s i hi⟩

/-- C3 witness: the general contract evaluated at `w = 16`, seed `42`,
`bitcount = 3`. -/
theorem get_bits_spec_witness :
    3 ≤ 16 ∧ (get_bits 16 42 3).2 = shr3^[3] 42 ∧
    (get_bits 16 42 3).1 < 2^3 :=
  ⟨by norm_num, (get_bits_spec.1 16 42 3 (by norm_num)).1,
    (get_bits_spec.1 16 42 3 (by norm_num)).2.1⟩

/-! ## `fls` bounds -/

theorem fls_le (w : Nat) : ∀ v, fls w v ≤ w := by
  induction w with
  | zero =>
    intro v
    simp [fls]
  | succ w ih =>
    intro v
    by_cases h : v = 0
    · simp [fls, h]
    · simp only [fls, if_neg h]
      exact Nat.succ_le_succ (ih _)

theorem lt_two_pow_fls (w : Nat) : ∀ v, v < 2^w → v < 2^(fls w v) := by
  induction w with
  | zero =>
    intro v hv
    simpa [fls] using hv
  | succ w ih =>
    intro v hv
    by_cases h : v = 0
    · simp [fls, h]
    · simp only [fls, if_neg h]
      have hdiv : v / 2 < 2^w := by
        rw [pow_succ] at hv
        omega
      have := ih (v / 2) hdiv
      rw [pow_succ]
      omega

theorem two_pow_fls_le (w : Nat) : ∀ v, 0 < v → v < 2^w → 2^(fls w v - 1) ≤ v := by
  induction w with
  | zero =>
    intro v hv hvw
    omega
  | succ w ih =>
    intro v hv hvw
    simp only [fls, if_neg (by omega : ¬ v = 0)]
    rcases Nat.eq_zero_or_pos (v / 2) with hz | hpos
    · have h1 : fls w (v / 2) = 0 := by
        cases w <;> simp [fls, hz]
      rw [h1]
      simpa using hv
    · have hdiv : v / 2 < 2^w := by
        rw [pow_succ] at hvw
        omega
      have hrec := ih (v / 2) hpos hdiv
      have hfpos : 0 < fls w (v / 2) := by
        cases w with
        | zero => omega
        | succ w2 => simp [fls, if_neg (by omega : ¬ v / 2 = 0)]
      rw [show fls w (v / 2) + 1 - 1 = (fls w (v / 2) - 1) + 1 from by omega]
      rw [pow_succ]
      omega

theorem fls_zero (w : Nat) : fls w 0 = 0 := by
  cases w <;> simp [fls]

theorem fls_pos_iff (w : Nat) (v : Nat) (hv : 0 < v) (hw : 0 < w) :
    0 < fls w v := by
  cases w with
  | zero => omega
  | succ w2 => simp [fls, if_neg (by omega : ¬ v = 0)]

/-! ## Rejection loop characterization -/

theorem minmaxLoop_some (w nb range : Nat) (hnb : nb ≤ w) :
    ∀ fuel s v s2, minmaxLoop w nb range fuel s = some (v, s2) →
      v ≤ range ∧ v < 2^nb ∧ ∃ m, s2 = shr3^[m] s := by
  intro fuel
  induction fuel with
  | zero =>
    intro s v s2 h
    simp [minmaxLoop] at h
  | succ fuel ih =>
    intro s v s2 h
    simp only [minmaxLoop] at h
    rw [get_bits_eq w s nb hnb] at h
    by_cases hacc : extractBits nb s ≤ range
    · rw [if_pos hacc] at h
      simp only [Option.some.injEq, Prod.mk.injEq] at h
      obtain ⟨hv, hs2⟩ := h
      exact ⟨hv ▸ hacc, hv ▸ extractBits_lt nb s, nb, hs2.symm⟩
    · rw [if_neg hacc] at h
      obtain ⟨hv, hlt, m, hm⟩ := ih (shr3^[nb] s) v s2 h
      exact ⟨hv, hlt, m + nb, by rw [hm, ← Function.iterate_add_apply]⟩

theorem get_minmax_some (t : IntTy) (fuel s minP maxP v s2 : Nat)
    (h : get_minmax t fuel s minP maxP = some (v, s2)) :
    ∃ c, c ≤ (maxP + 2^t.w - minP) % 2^t.w ∧ c < 2^t.w ∧
      v = (c + minP) % 2^t.w ∧ ∃ m, s2 = shr3^[m] s := by
  simp only [get_minmax] at h
  cases hL : minmaxLoop t.w (fls t.w ((maxP + 2^t.w - minP) % 2^t.w))
      ((maxP + 2^t.w - minP) % 2^t.w) fuel s with
  | none =>
    rw [hL] at h
    simp at h
  | some r =>
    obtain ⟨c, s3⟩ := r
    rw [hL] at h
    simp only [Option.some.injEq, Prod.mk.injEq] at h
    obtain ⟨hv, hs2⟩ := h
    obtain ⟨hc, hclt, m, hm⟩ :=
      minmaxLoop_some t.w _ _ (fls_le t.w _) fuel s c s3 hL
    refine ⟨c, hc, ?_, hv.symm, m, by rw [← hs2, hm]⟩
    calc c < 2^(fls t.w ((maxP + 2^t.w - minP) % 2^t.w)) := hclt
    _ ≤ 2^t.w := Nat.pow_le_pow_right (by omega) (fls_le t.w _)

theorem get_minmax_point (t : IntTy) (fuel s m : Nat) (hm : m < 2^t.w)
    (hfuel : 0 < fuel) : get_minmax t fuel s m m = some (m, s) := by
  obtain ⟨f2, rfl⟩ : ∃ f2, fuel = f2 + 1 := ⟨fuel - 1, by omega⟩
  simp only [get_minmax]
  have hrange : (m + 2^t.w - m) % 2^t.w = 0 := by
    rw [show m + 2^t.w - m = 2^t.w from by omega]
    exact Nat.mod_self _
  rw [hrange, fls_zero]
  simp only [minmaxLoop]
  rw [show get_bits t.w s 0 = (0, s) from rfl]
  simp [Nat.mod_eq_of_lt hm]

/-! ## Two's-complement window arithmetic -/

theorem int_eq_of_dvd_window {x y W : Int} (hW : 0 < W) (h : W ∣ x - y)
    (hx : 0 ≤ x) (hx2 : x < W) (hy : 0 ≤ y) (hy2 : y < W) : x = y := by
  obtain ⟨k, hk⟩ := h
  have hk1 : k < 1 := by
    have : W * k < W * 1 := by omega
    exact lt_of_mul_lt_mul_left this (by omega)
  have hk2 : -1 < k := by
    have : W * (-1) < W * k := by omega
    exact lt_of_mul_lt_mul_left this (by omega)
  have : k = 0 := by omega
  rw [this, Int.mul_zero] at hk
  omega

theorem toVal_cases (t : IntTy) (p : Nat) :
    t.toVal p = (p : Int) ∨ t.toVal p = (p : Int) - 2^t.w := by
  unfold IntTy.toVal
  split
  · split
    · exact Or.inr rfl
    · exact Or.inl rfl
  · exact Or.inl rfl

theorem toVal_lb (t : IntTy) (hw : 0 < t.w) (p : Nat) (hp : p < 2^t.w) :
    t.loVal ≤ t.toVal p := by
  have hp0 : (0:Int) ≤ (p : Int) := Int.ofNat_nonneg p
  have hpow : (0:Int) < 2^(t.w - 1) := by positivity
  unfold IntTy.toVal IntTy.loVal
  by_cases hs : t.signed = true
  · rw [if_pos hs, if_pos hs]
    by_cases hge : 2^(t.w - 1) ≤ p
    · rw [if_pos hge]
      have hsplit : (2:Int)^t.w = 2^(t.w - 1) * 2 := by
        rw [show t.w = (t.w - 1) + 1 from by omega, pow_succ]
        simp
      have hc : ((2:Nat)^(t.w - 1) : Int) ≤ (p : Int) := by exact_mod_cast hge
      push_cast at hc
      omega
    · rw [if_neg hge]
      omega
  · rw [if_neg hs, if_neg hs]
    exact hp0

theorem toVal_ub (t : IntTy) (hw : 0 < t.w) (p : Nat) (hp : p < 2^t.w) :
    t.toVal p < t.loVal + 2^t.w := by
  have hpInt : (p : Int) < 2^t.w := by exact_mod_cast hp
  have hsplit : (2:Int)^t.w = 2^(t.w - 1) * 2 := by
    rw [show t.w = (t.w - 1) + 1 from by omega, pow_succ]
    simp
  unfold IntTy.toVal IntTy.loVal
  by_cases hs : t.signed = true
  · rw [if_pos hs, if_pos hs]
    by_cases hge : 2^(t.w - 1) ≤ p
    · rw [if_pos hge]
      omega
    · rw [if_neg hge]
      have hc : (p : Int) < ((2:Nat)^(t.w - 1) : Int) := by
        exact_mod_cast by omega
      push_cast at hc
      omega
  · rw [if_neg hs, if_neg hs]
    omega

/-- Correctness of the wrapping span-and-add arithmetic of `get_minmax`:
if `toVal minP ≤ toVal maxP` and the accepted candidate `c` is at most
the wrapping span, then the wrapping sum `minP + c` denotes a value
between the two bounds. -/
theorem toVal_add_window (t : IntTy) (hw : 0 < t.w) (minP maxP c : Nat)
    (hmin : minP < 2^t.w) (hmax : maxP < 2^t.w)
    (hle : t.toVal minP ≤ t.toVal maxP)
    (hc : c ≤ (maxP + 2^t.w - minP) % 2^t.w) :
    t.toVal minP ≤ t.toVal ((c + minP) % 2^t.w) ∧
    t.toVal ((c + minP) % 2^t.w) ≤ t.toVal maxP := by
  have hWpos : (0:Int) < 2^t.w := by positivity
  have hWposN : (0:Nat) < 2^t.w := Nat.two_pow_pos _
  set r := (maxP + 2^t.w - minP) % 2^t.w with hrdef
  set q := (maxP + 2^t.w - minP) / 2^t.w with hqdef
  set a := t.toVal minP with ha
  set b := t.toVal maxP with hb
  have halb := toVal_lb t hw minP hmin
  have haub := toVal_ub t hw minP hmin
  have hblb := toVal_lb t hw maxP hmax
  have hbub := toVal_ub t hw maxP hmax
  rw [← ha] at halb haub
  rw [← hb] at hblb hbub
  have hdm := Nat.div_add_mod (maxP + 2^t.w - minP) (2^t.w)
  rw [← hrdef, ← hqdef] at hdm
  have hNat : r + 2^t.w * q + minP = maxP + 2^t.w := by omega
  have hInt : (r : Int) + (2:Int)^t.w * (q : Int) + (minP : Int)
      = (maxP : Int) + (2:Int)^t.w := by exact_mod_cast hNat
  have hA := toVal_cases t minP
  have hB := toVal_cases t maxP
  rw [← ha] at hA
  rw [← hb] at hB
  -- the span as an integer equals b - a
  have hrange : (r : Int) = b - a := by
    apply int_eq_of_dvd_window hWpos
    · have h1 : ((2:Int)^t.w) ∣ (r:Int) - ((maxP:Int) - (minP:Int)) :=
        ⟨1 - (q:Int), by linear_combination hInt⟩
      have h2 : ((2:Int)^t.w) ∣ (maxP:Int) - b := by
        rcases hB with hB | hB
        · exact ⟨0, by rw [hB]; ring⟩
        · exact ⟨1, by rw [hB]; ring⟩
      have h3 : ((2:Int)^t.w) ∣ a - (minP:Int) := by
        rcases hA with hA | hA
        · exact ⟨0, by rw [hA]; ring⟩
        · exact ⟨-1, by rw [hA]; ring⟩
      have hsum : (r:Int) - (b - a)
          = ((r:Int) - ((maxP:Int) - (minP:Int)))
            + ((maxP:Int) - b) + (a - (minP:Int)) := by ring
      rw [hsum]
      exact dvd_add (dvd_add h1 h2) h3
    · exact Int.ofNat_nonneg _
    · exact_mod_cast Nat.mod_lt _ hWposN
    · omega
    · omega
  set v := (c + minP) % 2^t.w with hvdef
  have hvlt : v < 2^t.w := Nat.mod_lt _ hWposN
  set tv := t.toVal v with htvdef
  have hclow : (0:Int) ≤ (c:Int) := Int.ofNat_nonneg c
  have hcleInt : (c : Int) ≤ b - a := by
    rw [← hrange]
    exact_mod_cast hc
  have hdm2 := Nat.div_add_mod (c + minP) (2^t.w)
  set q2 := (c + minP) / 2^t.w with hq2def
  rw [← hvdef] at hdm2
  have hInt2 : (2:Int)^t.w * (q2 : Int) + (v : Int)
      = (c : Int) + (minP : Int) := by exact_mod_cast hdm2
  have hV := toVal_cases t v
  rw [← htvdef] at hV
  have hdvd : ((2:Int)^t.w) ∣ tv - (a + (c:Int)) := by
    have e1 : ((2:Int)^t.w) ∣ tv - (v:Int) := by
      rcases hV with hV | hV
      · exact ⟨0, by rw [hV]; ring⟩
      · exact ⟨-1, by rw [hV]; ring⟩
    have e2 : ((2:Int)^t.w) ∣ (v:Int) - ((c:Int) + (minP:Int)) :=
      ⟨-(q2:Int), by linear_combination hInt2⟩
    have e3 : ((2:Int)^t.w) ∣ (minP:Int) - a := by
      rcases hA with hA | hA
      · exact ⟨0, by rw [hA]; ring⟩
      · exact ⟨1, by rw [hA]; ring⟩
    have hsum : tv - (a + (c:Int))
        = (tv - (v:Int)) + ((v:Int) - ((c:Int) + (minP:Int)))
          + ((minP:Int) - a) := by ring
    rw [hsum]
    exact dvd_add (dvd_add e1 e2) e3
  have htvl := toVal_lb t hw v hvlt
  have htvu := toVal_ub t hw v hvlt
  rw [← htvdef] at htvl htvu
  have heq : tv = a + (c:Int) := by
    have hshift : ((2:Int)^t.w) ∣ (tv - t.loVal) - (a + (c:Int) - t.loVal) := by
      rw [show (tv - t.loVal) - (a + (c:Int) - t.loVal) = tv - (a + (c:Int))
        from by ring]
      exact hdvd
    have := int_eq_of_dvd_window hWpos hshift (by omega) (by omega)
      (by omega) (by omega)
    omega
  omega

/-- C4. For every supported type `T`, state, and pair `min ≤ max` in
`T`'s order, a returning `get_minmax(min, max)` call yields `v` with
`min ≤ v ≤ max`; in particular for the sign-crossing signed 32-bit range
`[-170, 60]`, by the unsigned two's-complement wrapping arithmetic. -/
theorem get_minmax_in_range :
    (∀ (t : IntTy) fuel s minP maxP v s2, 0 < t.w →
      minP < 2^t.w → maxP < 2^t.w → t.le minP maxP →
      get_minmax t fuel s minP maxP = some (v, s2) →
      t.le minP v ∧ t.le v maxP) ∧
    (∀ fuel s v s2,
      get_minmax ⟨32, true⟩ fuel s (2^32 - 170) 60 = some (v, s2) →
      (-170 : Int) ≤ IntTy.toVal ⟨32, true⟩ v ∧
        IntTy.toVal ⟨32, true⟩ v ≤ 60) := by
  have hm170 : IntTy.toVal ⟨32, true⟩ (2^32 - 170) = -170 := by
    unfold IntTy.toVal
    norm_num
  have h60 : IntTy.toVal ⟨32, true⟩ 60 = 60 := by
    unfold IntTy.toVal
    norm_num
  have main : ∀ (t : IntTy) fuel s minP maxP v s2, 0 < t.w →
      minP < 2^t.w → maxP < 2^t.w → t.le minP maxP →
      get_minmax t fuel s minP maxP = some (v, s2) →
      t.le minP v ∧ t.le v maxP := by
    intro t fuel s minP maxP v s2 hw hmin hmax hle h
    obtain ⟨c, hc, _, hv, _⟩ := get_minmax_some t fuel s minP maxP v s2 h
    subst hv
    exact toVal_add_window t hw minP maxP c hmin hmax hle hc
  refine ⟨main, ?_⟩
  intro fuel s v s2 h
  have hres := main ⟨32, true⟩ fuel s (2^32 - 170) 60 v s2 (by norm_num)
    (by norm_num) (by norm_num) (by rw [IntTy.le, hm170, h60]; norm_num) h
  rw [IntTy.le, IntTy.le, hm170, h60] at hres
  exact hres

/-- C4 witness: a concrete returning signed call inside `[-170, 60]`. -/
theorem get_minmax_in_range_witness :
    (0 < (32:Nat) ∧ IntTy.le ⟨32, true⟩ (2^32 - 170) 60) ∧
    IntTy.le ⟨32, true⟩ (2^32 - 170) 4294967158 ∧
    IntTy.le ⟨32, true⟩ 4294967158 60 := by
  have hcall : get_minmax ⟨32, true⟩ 100 42 (2^32 - 170) 60
      = some (4294967158, 2431644334) := by decide
  have hle : IntTy.le ⟨32, true⟩ (2^32 - 170) 60 := by decide
  exact ⟨⟨by norm_num, hle⟩,
    get_minmax_in_range.1 ⟨32, true⟩ 100 42 _ _ _ _ (by norm_num)
      (by norm_num) (by norm_num) hle hcall⟩

/-- C5. For every supported type, state and value `m`, `get_minmax(m, m)`
returns exactly `m` and leaves the register bit-identical: the span is
`0`, `num_bits = 0`, `get_bits(0)` consumes zero transitions and its
value `0` is accepted on the first draw. -/
theorem get_minmax_point_frame :
    ∀ (t : IntTy) fuel s m, m < 2^t.w → 0 < fuel →
      get_minmax t fuel s m m = some (m, s) :=
  fun t fuel s m hm hf => get_minmax_point t fuel s m hm hf

/-- C5 witness: `get_minmax(111, 111)` from register `42` returns `111`
with the register unchanged. -/
theorem get_minmax_point_frame_witness :
    (111 : Nat) < 2^32 ∧ 0 < 1 ∧
    get_minmax ⟨32, false⟩ 1 42 111 111 = some (111, 42) :=
  ⟨by norm_num, by norm_num,
    get_minmax_point_frame ⟨32, false⟩ 1 42 111 (by norm_num) (by norm_num)⟩

/-! ## Termination of the rejection loop

If every draw over a whole period were rejected, every drawn candidate
would have its top bit set; but the xor of the first-drawn bits over one
full period is the low bit of `shr3` applied to the xor of all block
start states, which telescopes to `0` — contradicting the odd period. -/

theorem foldr_xor_init (g : Nat → Nat) (l : List Nat) (x : Nat) :
    l.foldr (fun i acc => g i ^^^ acc) x
      = l.foldr (fun i acc => g i ^^^ acc) 0 ^^^ x := by
  induction l with
  | nil => simp
  | cons a l ih => simp [ih, Nat.xor_assoc]

theorem xorFold_succ_front (f : Nat → Nat) (n : Nat) :
    xorFold f (n+1) = f 0 ^^^ xorFold (fun k => f (k+1)) n := by
  unfold xorFold
  rw [List.range_succ_eq_map]
  simp [List.foldr_map]

theorem xorFold_succ_back (f : Nat → Nat) (n : Nat) :
    xorFold f (n+1) = xorFold f n ^^^ f n := by
  unfold xorFold
  rw [List.range_succ, List.foldr_append]
  simp only [List.foldr_cons, List.foldr_nil, Nat.xor_zero]
  exact foldr_xor_init _ _ _

theorem xorFold_congr (f g : Nat → Nat) (n : Nat)
    (h : ∀ k, k < n → f k = g k) : xorFold f n = xorFold g n := by
  induction n with
  | zero => rfl
  | succ n ih =>
    rw [xorFold_succ_back, xorFold_succ_back, ih (fun k hk => h k (by omega)),
      h n (by omega)]

theorem xor_mod_two (a b : Nat) : (a ^^^ b) % 2 = (a % 2 + b % 2) % 2 := by
  have h := xor_mod_two_pow a b 1
  rw [pow_one] at h
  rcases Nat.mod_two_eq_zero_or_one a with h1 | h1 <;>
    rcases Nat.mod_two_eq_zero_or_one b with h2 | h2 <;>
    rw [h, h1, h2] <;> decide

theorem xorFold_mod_two (n : Nat) :
    ∀ f : Nat → Nat, (∀ k, k < n → f k % 2 = 1) → xorFold f n % 2 = n % 2 := by
  induction n with
  | zero =>
    intro f _
    rfl
  | succ n ih =>
    intro f h
    rw [xorFold_succ_front, xor_mod_two, h 0 (by omega),
      ih (fun k => f (k+1)) (fun k hk => h (k+1) (by omega))]
    omega

theorem xorFold_lt (f : Nat → Nat) (n : Nat) (h : ∀ k, k < n → f k < 2^32) :
    xorFold f n < 2^32 := by
  induction n with
  | zero =>
    simp [xorFold]
  | succ n ih =>
    rw [xorFold_succ_back]
    exact xor_lt_two_pow (ih (fun k hk => h k (by omega))) (h n (by omega))

theorem shr3_iterate_linear (n a b : Nat) :
    shr3^[n] (a ^^^ b) = shr3^[n] a ^^^ shr3^[n] b := by
  induction n with
  | zero => simp
  | succ n ih =>
    rw [Function.iterate_succ_apply', Function.iterate_succ_apply',
      Function.iterate_succ_apply', ih, shr3_linear]

theorem shr3_iterate_zero_fix (n : Nat) : shr3^[n] 0 = 0 := by
  induction n with
  | zero => rfl
  | succ n ih => rw [Function.iterate_succ_apply', ih, shr3_zero]

theorem iterate_xorFold (m n : Nat) (f : Nat → Nat) :
    shr3^[m] (xorFold f n) = xorFold (fun k => shr3^[m] (f k)) n := by
  induction n with
  | zero =>
    simp [xorFold, shr3_iterate_zero_fix]
  | succ n ih =>
    rw [xorFold_succ_back, xorFold_succ_back, shr3_iterate_linear, ih]

/-- If no draw in a full period were accepted, parity fails: some block
start below `2^32 - 1` yields an accepted candidate. -/
theorem exists_accepted (w nb range s : Nat) (hnb : nb ≤ w) (hnbN : nb ≤ 128)
    (hlb : 0 < nb → 2^(nb - 1) ≤ range) (hs0 : 0 < s) (hs : s < 2^32) :
    ∃ k, k < 4294967295 ∧ extractBits nb (shr3^[nb*k] s) ≤ range := by
  rcases Nat.eq_zero_or_pos nb with rfl | hnbpos
  · exact ⟨0, by norm_num, by simp [extractBits]⟩
  by_contra hnone
  push_neg at hnone
  have hbit : ∀ k, k < 4294967295 → shr3 (shr3^[nb*k] s) % 2 = 1 := by
    intro k hk
    have hrej := hnone k hk
    have hvlt := extractBits_lt nb (shr3^[nb*k] s)
    have hge : 2^(nb-1) ≤ extractBits nb (shr3^[nb*k] s) :=
      le_trans (hlb hnbpos) (le_of_lt hrej)
    have h2 : (2:Nat)^nb = 2^(nb-1) * 2 := by
      rw [show nb = nb - 1 + 1 from by omega, pow_succ]
      simp
    have hdiv : extractBits nb (shr3^[nb*k] s) / 2^(nb-1) = 1 :=
      Nat.div_eq_of_lt_le (by omega) (by omega)
    have hbit0 := extractBits_bit nb (shr3^[nb*k] s) 0 (by omega)
    rw [show nb - 1 - 0 = nb - 1 from rfl, hdiv, Function.iterate_one] at hbit0
    omega
  have hglt : ∀ k, k < 4294967295 → shr3^[nb*k] s < 2^32 :=
    fun k _ => shr3_iterate_lt _ _ hs
  have hYlt : xorFold (fun k => shr3^[nb*k] s) 4294967295 < 2^32 :=
    xorFold_lt _ _ hglt
  have hfix : shr3^[nb] (xorFold (fun k => shr3^[nb*k] s) 4294967295)
      = xorFold (fun k => shr3^[nb*k] s) 4294967295 := by
    rw [iterate_xorFold]
    have hcongr : ∀ k, k < 4294967295 →
        shr3^[nb] (shr3^[nb*k] s) = shr3^[nb*(k+1)] s := by
      intro k _
      rw [← Function.iterate_add_apply]
      congr 1
      ring
    rw [xorFold_congr _ _ _ hcongr]
    have hfront := xorFold_succ_front (fun k => shr3^[nb*k] s) 4294967295
    have hback := xorFold_succ_back (fun k => shr3^[nb*k] s) 4294967295
    have hg0 : shr3^[nb*0] s = s := by simp
    have hgN : shr3^[nb*4294967295] s = s := by
      rw [Nat.mul_comm]
      exact shr3_iterate_mul_period nb s hs
    rw [hg0] at hfront
    rw [hgN] at hback
    have hshift : xorFold (fun k => shr3^[nb*(k+1)] s) 4294967295
        = s ^^^ xorFold (fun k => shr3^[nb*k] s) 4294967296 := by
      rw [hfront, ← Nat.xor_assoc, Nat.xor_self, Nat.zero_xor]
    rw [hshift, show (4294967296 : Nat) = 4294967295 + 1 from rfl, hback,
      ← Nat.xor_assoc, Nat.xor_comm s _, Nat.xor_assoc, Nat.xor_self,
      Nat.xor_zero]
  have hY0 : xorFold (fun k => shr3^[nb*k] s) 4294967295 = 0 := by
    by_contra hY
    have hmp := minPeriod_all hY hYlt
    have hper : Function.IsPeriodicPt shr3 nb
        (xorFold (fun k => shr3^[nb*k] s) 4294967295) := hfix
    have := hper.minimalPeriod_le hnbpos
    rw [hmp] at this
    omega
  have hz : xorFold (fun k => shr3 (shr3^[nb*k] s)) 4294967295 = 0 := by
    have hit := iterate_xorFold 1 4294967295 (fun k => shr3^[nb*k] s)
    simp only [Function.iterate_one] at hit
    rw [← hit, hY0, shr3_zero]
  have hpar := xorFold_mod_two 4294967295 _ hbit
  rw [hz] at hpar
  norm_num at hpar

theorem minmaxLoop_succeeds (w nb range : Nat) (hnb : nb ≤ w) :
    ∀ fuel s, (∃ k, k < fuel ∧ extractBits nb (shr3^[nb*k] s) ≤ range) →
      ∃ v s2, minmaxLoop w nb range fuel s = some (v, s2) := by
  intro fuel
  induction fuel with
  | zero =>
    rintro s ⟨k, hk, _⟩
    omega
  | succ fuel ih =>
    rintro s ⟨k, hk, hacc⟩
    simp only [minmaxLoop]
    rw [get_bits_eq w s nb hnb]
    by_cases h0 : extractBits nb s ≤ range
    · rw [if_pos h0]
      exact ⟨_, _, rfl⟩
    · rw [if_neg h0]
      apply ih (shr3^[nb] s)
      obtain ⟨k2, rfl⟩ : ∃ k2, k = k2 + 1 := by
        rcases Nat.eq_zero_or_pos k with rfl | hkpos
        · exact absurd (by simpa using hacc) h0
        · exact ⟨k - 1, by omega⟩
      refine ⟨k2, by omega, ?_⟩
      rw [← Function.iterate_add_apply, show nb*k2 + nb = nb*(k2+1) from by
        ring]
      exact hacc

/-! ## Range resolution -/

theorem get_minmax_le (t : IntTy) (fuel s minP maxP v s2 : Nat) (hw : 0 < t.w)
    (hmin : minP < 2^t.w) (hmax : maxP < 2^t.w) (hle : t.le minP maxP)
    (h : get_minmax t fuel s minP maxP = some (v, s2)) :
    t.le minP v ∧ t.le v maxP := by
  obtain ⟨c, hc, _, hv, _⟩ := get_minmax_some t fuel s minP maxP v s2 h
  subst hv
  exact toVal_add_window t hw minP maxP c hmin hmax hle hc

theorem le_unsigned (w p q : Nat) : IntTy.le ⟨w, false⟩ p q ↔ p ≤ q := by
  show IntTy.toVal ⟨w, false⟩ p ≤ IntTy.toVal ⟨w, false⟩ q ↔ p ≤ q
  unfold IntTy.toVal
  simp

/-- C7. `get_range` resolves its bounds and delegates to `get_minmax`:
an included start `x` gives `min = x`, an unbounded start gives
`min = T::MINVAL`; an included end `y` gives `max = y`, an unbounded end
gives `max = T::MAXVAL`, an excluded end `y` gives the wrapping decrement
`y - 1` (an actual decrement whenever `y` can be decremented, which the
debug assertion `y > T::MINVAL` guarantees); hence on `u32`,
`get_range(60..170)` lies in `[60, 170)`, `get_range(60..=170)` in
`[60, 170]`, `get_range(..170)` is `< 170`, `get_range(..=170)` is
`≤ 170`, and `get_range(0xFFFFFFF0..)` is `≥ 0xFFFFFFF0`. -/
theorem get_range_bounds :
    (∀ (t : IntTy) fuel s x y,
      get_range t fuel s (.included x) (.included y)
        = get_minmax t fuel s x y) ∧
    (∀ (t : IntTy) fuel s x y,
      get_range t fuel s (.included x) (.excluded y)
        = get_minmax t fuel s x ((y + 2^t.w - 1) % 2^t.w)) ∧
    (∀ (t : IntTy) fuel s x,
      get_range t fuel s (.included x) .unbounded
        = get_minmax t fuel s x t.maxvalP) ∧
    (∀ (t : IntTy) fuel s hi,
      get_range t fuel s .unbounded hi
        = get_range t fuel s (.included t.minvalP) hi) ∧
    (∀ (t : IntTy) y, 0 < y → y ≤ 2^t.w →
      (y + 2^t.w - 1) % 2^t.w = y - 1) ∧
    (∀ fuel s v s2, get_range ⟨32, false⟩ fuel s (.included 60)
      (.excluded 170) = some (v, s2) → 60 ≤ v ∧ v < 170) ∧
    (∀ fuel s v s2, get_range ⟨32, false⟩ fuel s (.included 60)
      (.included 170) = some (v, s2) → 60 ≤ v ∧ v ≤ 170) ∧
    (∀ fuel s v s2, get_range ⟨32, false⟩ fuel s .unbounded
      (.excluded 170) = some (v, s2) → v < 170) ∧
    (∀ fuel s v s2, get_range ⟨32, false⟩ fuel s .unbounded
      (.included 170) = some (v, s2) → v ≤ 170) ∧
    (∀ fuel s v s2, get_range ⟨32, false⟩ fuel s (.included 0xFFFFFFF0)
      .unbounded = some (v, s2) → 0xFFFFFFF0 ≤ v) := by
  refine ⟨fun t fuel s x y => rfl, fun t fuel s x y => rfl,
    fun t fuel s x => rfl, fun t fuel s hi => rfl, ?_, ?_, ?_, ?_, ?_, ?_⟩
  · intro t y hy hyw
    rw [show y + 2^t.w - 1 = (y - 1) + 2^t.w from by omega,
      Nat.add_mod_right, Nat.mod_eq_of_lt (by omega)]
  · intro fuel s v s2 h
    have h2 : get_minmax ⟨32, false⟩ fuel s 60 ((170 + 2^32 - 1) % 2^32)
        = some (v, s2) := h
    rw [show ((170:Nat) + 2^32 - 1) % 2^32 = 169 from by norm_num] at h2
    obtain ⟨ha, hb⟩ := get_minmax_le ⟨32, false⟩ fuel s 60 169 v s2
      (by norm_num) (by norm_num) (by norm_num) (by decide) h2
    rw [le_unsigned] at ha hb
    omega
  · intro fuel s v s2 h
    obtain ⟨ha, hb⟩ := get_minmax_le ⟨32, false⟩ fuel s 60 170 v s2
      (by norm_num) (by norm_num) (by norm_num) (by decide) h
    rw [le_unsigned] at ha hb
    omega
  · intro fuel s v s2 h
    have h2 : get_minmax ⟨32, false⟩ fuel s 0 ((170 + 2^32 - 1) % 2^32)
        = some (v, s2) := h
    rw [show ((170:Nat) + 2^32 - 1) % 2^32 = 169 from by norm_num] at h2
    obtain ⟨ha, hb⟩ := get_minmax_le ⟨32, false⟩ fuel s 0 169 v s2
      (by norm_num) (by norm_num) (by norm_num) (by decide) h2
    rw [le_unsigned] at hb
    omega
  · intro fuel s v s2 h
    have h2 : get_minmax ⟨32, false⟩ fuel s 0 170 = some (v, s2) := h
    obtain ⟨ha, hb⟩ := get_minmax_le ⟨32, false⟩ fuel s 0 170 v s2
      (by norm_num) (by norm_num) (by norm_num) (by decide) h2
    rw [le_unsigned] at hb
    omega
  · intro fuel s v s2 h
    have h2 : get_minmax ⟨32, false⟩ fuel s 0xFFFFFFF0 (2^32 - 1)
        = some (v, s2) := h
    obtain ⟨ha, hb⟩ := get_minmax_le ⟨32, false⟩ fuel s 0xFFFFFFF0 (2^32 - 1)
      v s2 (by norm_num) (by norm_num) (by norm_num) (by decide) h2
    rw [le_unsigned] at ha
    omega

/-- C7 witness: a concrete `get_range(60..170)` call landing in
`[60, 170)`. -/
theorem get_range_bounds_witness :
    get_range ⟨32, false⟩ 50 42 (.included 60) (.excluded 170)
      = some (76, 3713466840) ∧ 60 ≤ 76 ∧ 76 < 170 := by
  have hcall : get_range ⟨32, false⟩ 50 42 (.included 60) (.excluded 170)
      = some (76, 3713466840) := by decide
  exact ⟨hcall, get_range_bounds.2.2.2.2.2.1 50 42 76 3713466840 hcall⟩

/-- C10. When `get_range` is given an excluded start bound, the bound
value is ignored entirely: the call is identical, in result and bits
consumed, to one with an unbounded start (`min = T::MINVAL`). -/
theorem get_range_excluded_start :
    ∀ (t : IntTy) fuel s x hi,
      get_range t fuel s (.excluded x) hi
        = get_range t fuel s .unbounded hi :=
  fun t fuel s x hi => rfl

/-- C8. The register is never zero: both constructors yield a non-zero
register, `shr3` preserves non-zeroness, and each in-contract operation
(`get_bits`, `get`, `get_max`, `get_minmax`, `get_range`) maps a
non-zero register to a non-zero register. -/
theorem state_nonzero_invariant :
    Shr3.new ≠ 0 ∧
    (∀ s, Shr3.new_state s ≠ 0) ∧
    (∀ s, 0 < s → s < 2^32 → shr3 s ≠ 0) ∧
    (∀ w s n, 0 < s → s < 2^32 → (get_bits w s n).2 ≠ 0) ∧
    (∀ (t : IntTy) s, 0 < s → s < 2^32 → (get t s).2 ≠ 0) ∧
    (∀ (t : IntTy) fuel s minP maxP v s2, 0 < s → s < 2^32 →
      get_minmax t fuel s minP maxP = some (v, s2) → s2 ≠ 0) ∧
    (∀ (t : IntTy) fuel s maxP v s2, 0 < s → s < 2^32 →
      get_max t fuel s maxP = some (v, s2) → s2 ≠ 0) ∧
    (∀ (t : IntTy) fuel s lo hi v s2, 0 < s → s < 2^32 →
      get_range t fuel s lo hi = some (v, s2) → s2 ≠ 0) := by
  have hbits : ∀ w s n, 0 < s → s < 2^32 → (get_bits w s n).2 ≠ 0 := by
    intro w s n hs0 hs
    unfold get_bits
    rw [getBitsAux_state]
    exact shr3_iterate_ne_zero n hs (by omega)
  have hmm : ∀ (t : IntTy) fuel s minP maxP v s2, 0 < s → s < 2^32 →
      get_minmax t fuel s minP maxP = some (v, s2) → s2 ≠ 0 := by
    intro t fuel s minP maxP v s2 hs0 hs h
    obtain ⟨c, _, _, _, m, hm⟩ := get_minmax_some t fuel s minP maxP v s2 h
    rw [hm]
    exact shr3_iterate_ne_zero m hs (by omega)
  refine ⟨by decide, ?_, ?_, hbits, ?_, hmm, ?_, ?_⟩
  · intro s
    unfold Shr3.new_state
    split <;> omega
  · intro s hs0 hs
    exact shr3_ne_zero hs (by omega)
  · intro t s hs0 hs
    exact hbits t.w s t.w hs0 hs
  · intro t fuel s maxP v s2 hs0 hs h
    exact hmm t fuel s t.minvalP maxP v s2 hs0 hs h
  · intro t fuel s lo hi v s2 hs0 hs h
    cases lo <;> cases hi <;>
      exact hmm t fuel s _ _ v s2 hs0 hs h

/-- C8 witness: one transition from register `42` stays non-zero. -/
theorem state_nonzero_invariant_witness :
    0 < 42 ∧ (42:Nat) < 2^32 ∧ shr3 42 ≠ 0 :=
  ⟨by norm_num, by norm_num,
    state_nonzero_invariant.2.2.1 42 (by norm_num) (by norm_num)⟩

/-- C6. For every supported type (width at most 128), every non-zero
`u32` register, and every `min ≤ max`, the rejection loop of
`get_minmax` terminates: some finite fuel makes the call return. -/
theorem get_minmax_terminates :
    ∀ (t : IntTy) s minP maxP, 0 < t.w → t.w ≤ 128 → 0 < s → s < 2^32 →
      minP < 2^t.w → maxP < 2^t.w → t.le minP maxP →
      ∃ fuel v s2, get_minmax t fuel s minP maxP = some (v, s2) := by
  intro t s minP maxP hw hw128 hs0 hs hmin hmax hle
  have hnb : fls t.w ((maxP + 2^t.w - minP) % 2^t.w) ≤ t.w := fls_le _ _
  have hlb : 0 < fls t.w ((maxP + 2^t.w - minP) % 2^t.w) →
      2^(fls t.w ((maxP + 2^t.w - minP) % 2^t.w) - 1)
        ≤ (maxP + 2^t.w - minP) % 2^t.w := by
    intro hpos
    have hr0 : 0 < (maxP + 2^t.w - minP) % 2^t.w := by
      by_contra h0
      rw [show (maxP + 2^t.w - minP) % 2^t.w = 0 from by omega, fls_zero]
        at hpos
      omega
    exact two_pow_fls_le t.w _ hr0 (Nat.mod_lt _ (Nat.two_pow_pos _))
  obtain ⟨k, hk, hacc⟩ := exists_accepted t.w
    (fls t.w ((maxP + 2^t.w - minP) % 2^t.w))
    ((maxP + 2^t.w - minP) % 2^t.w) s hnb (by omega) hlb hs0 hs
  obtain ⟨v, s2, hloop⟩ := minmaxLoop_succeeds t.w
    (fls t.w ((maxP + 2^t.w - minP) % 2^t.w))
    ((maxP + 2^t.w - minP) % 2^t.w) hnb 4294967295 s ⟨k, hk, hacc⟩
  refine ⟨4294967295, (v + minP) % 2^t.w, s2, ?_⟩
  simp only [get_minmax]
  rw [hloop]

/-- C6 witness: the unsigned 32-bit range `[60, 170]` from register `42`
admits a terminating fuel. -/
theorem get_minmax_terminates_witness :
    (0 < (32:Nat) ∧ (32:Nat) ≤ 128 ∧ 0 < (42:Nat) ∧ (42:Nat) < 2^32 ∧
      (60:Nat) < 2^32 ∧ (170:Nat) < 2^32 ∧ IntTy.le ⟨32, false⟩ 60 170) ∧
    ∃ fuel v s2, get_minmax ⟨32, false⟩ fuel 42 60 170 = some (v, s2) :=
  ⟨⟨by norm_num, by norm_num, by norm_num, by norm_num, by norm_num,
    by norm_num, by decide⟩,
    get_minmax_terminates ⟨32, false⟩ 42 60 170 (by norm_num) (by norm_num)
      (by norm_num) (by norm_num) (by norm_num) (by norm_num) (by decide)⟩
